import Mathlib

/-!
Verification of the weak-RSA recovery procedure from the
`twctf18/revolutional-secure-angou` write-up notebook.

The notebook's recovery script (SageMath) is:

  k = 2
  while not r:
      eq = n * e - p * (k * p + 1)
      r = eq.roots(p, ring=ZZ)
      k += 2
  p = r[0][0]
  q = n / p
  d = inverse_mod(e, (p-1) * (q-1))
  plaintext = power_mod(ciphertext, d, n)
  print long_to_bytes(plaintext)[-48:]

Below, that script is embedded shallowly over the integers: the Sage
root-finding call becomes an explicit list of the integer roots of the
quadratic, the unbounded `while` loop becomes a fuel-indexed recursion
(the script has no iteration ceiling, so nontermination is expressed as
`none` at every fuel), and the fallible library calls (`inverse_mod` on
a non-coprime or non-integer modulus, division by a non-divisor, which
raise in Sage) become `Option`.
-/

set_option maxRecDepth 100000

namespace Angou

/-- Newton iteration for the integer square root, with explicit fuel so
that the recursion is structural and evaluates inside the kernel.  The
iteration stops as soon as the guess stops decreasing, so the fuel is
never exhausted when it is at least the initial guess. -/
def sqrtIter (n : ℕ) : ℕ → ℕ → ℕ
  | 0, g => g
  | fuel + 1, g => if (g + n / g) / 2 < g then sqrtIter n fuel ((g + n / g) / 2) else g

/-- Integer square root (floor): `sqrtNat n` is the largest `r` with
`r * r ≤ n`. -/
def sqrtNat (n : ℕ) : ℕ := if n ≤ 1 then n else sqrtIter n n (n / 2 + 1)

/-- Integer square root of an integer (`0` on negatives, which never
arise: the discriminants below are positive). -/
def intSqrt (n : ℤ) : ℤ := (sqrtNat n.toNat : ℤ)

/-- Discriminant of the quadratic `k*p^2 + p - n*e = 0` that the script
solves for `p` (the script writes it as the root equation
`n*e - p*(k*p + 1) = 0`). -/
def quadDisc (n e k : ℤ) : ℤ := 1 + 4 * k * (n * e)

/-- The integer roots of `n*e - p*(k*p + 1)` as a polynomial in `p`,
in increasing order: this is what Sage's `eq.roots(p, ring=ZZ)` returns
for the script's equation.  A root exists exactly when the discriminant
is a perfect square and `2*k` divides `-1 - sqrt` (negative root) or
`-1 + sqrt` (nonnegative root).  For `k ≥ 2` at most one of the two
divisibility conditions can hold, so the list has at most one element. -/
def quadRoots (n e k : ℤ) : List ℤ :=
  if intSqrt (quadDisc n e k) * intSqrt (quadDisc n e k) = quadDisc n e k then
    (if 2 * k ∣ (-1 - intSqrt (quadDisc n e k)) then
      [(-1 - intSqrt (quadDisc n e k)) / (2 * k)] else []) ++
    (if 2 * k ∣ (-1 + intSqrt (quadDisc n e k)) then
      [(-1 + intSqrt (quadDisc n e k)) / (2 * k)] else [])
  else []

/-- The script's loop

  k = 2
  while not r:
      r = eq.roots(p, ring=ZZ)
      k += 2

made explicit: `searchAux n e fuel k` runs up to `fuel` iterations
starting from the loop variable value `k`; on the first `k` whose
quadratic has an integer root it returns `(k + 2, r[0][0])` — the value
of the variable `k` after the final `k += 2`, paired with the first
root.  The script itself has no iteration ceiling: `fuel` only indexes
the approximants of the unbounded loop, and a run of the script that
never finds a root corresponds to `none` at every fuel. -/
def searchAux (n e : ℤ) : ℕ → ℤ → Option (ℤ × ℤ)
  | 0, _ => none
  | fuel + 1, k =>
    match quadRoots n e k with
    | [] => searchAux n e fuel (k + 2)
    | p :: _ => some (k + 2, p)

/-- The loop entered at `k = 2`, as in the script. -/
def search (n e : ℤ) (fuel : ℕ) : Option (ℤ × ℤ) := searchAux n e fuel 2

/-- Extended Euclid by structural recursion on explicit fuel (one unit
per division step suffices, since the remainder strictly decreases):
from `(r0, r1)` with Bezout coefficients `(s0, t0)` for `r0` and
`(s1, t1)` for `r1`, returns `(gcd, s, t)` with
`gcd = a * s + b * t`. -/
def egcdAux : ℕ → ℕ → ℕ → ℤ → ℤ → ℤ → ℤ → ℕ × ℤ × ℤ
  | 0, r0, _, s0, _, t0, _ => (r0, s0, t0)
  | fuel + 1, r0, r1, s0, s1, t0, t1 =>
    if r1 = 0 then (r0, s0, t0)
    else
      egcdAux fuel r1 (r0 % r1) s1 (s0 - (r0 / r1 : ℕ) * s1) t1 (t0 - (r0 / r1 : ℕ) * t1)

/-- Extended Euclid: `(g, s, t)` with `g = gcd a b` and
`(g : ℤ) = a * s + b * t`. -/
def egcd (a b : ℕ) : ℕ × ℤ × ℤ := egcdAux b a b 1 0 0 1

/-- Sage's `inverse_mod(a, m)` for the arguments the script can pass it
(`a = e ≥ 0`): the inverse of `a` modulo `m` in `[0, m)`, computed from
the extended Euclid coefficient; `none` when `m ≤ 0` or `gcd a m ≠ 1`,
where Sage raises `ZeroDivisionError`. -/
def inverse_mod (a m : ℤ) : Option ℤ :=
  if 0 < m ∧ Int.gcd a m = 1 then
    some (((egcd a.natAbs m.toNat).2.1) % m)
  else none

/-- Sage's `power_mod(b, ex, n)` for the nonnegative exponents the
script produces. -/
def powMod (b ex n : ℤ) : ℤ := (b ^ ex.toNat) % n

/-- The tail of the script after the loop, run on the loop's result:

  p = r[0][0]
  q = n / p
  d = inverse_mod(e, (p-1) * (q-1))
  plaintext = power_mod(ciphertext, d, n)

returning every intermediate `(p, q, d, plaintext)`.  Sage's `/` on
integers is exact division in ℚ; when `p = 0` it raises and when
`p ∤ n` the modulus `(p-1)*(q-1)` is a non-integer rational, on which
`inverse_mod` raises — both runs produce no plaintext and are modelled
as `none`, and in the remaining case `n / p` is the exact integer
quotient. -/
def recoverFull (n e c : ℤ) (fuel : ℕ) : Option (ℤ × ℤ × ℤ × ℤ) :=
  match search n e fuel with
  | none => none
  | some (_, p) =>
    if p ≠ 0 ∧ n % p = 0 then
      match inverse_mod e ((p - 1) * (n / p - 1)) with
      | none => none
      | some d => some (p, n / p, d, powMod c d n)
    else none

/-- The recovered plaintext integer alone. -/
def recoverInt (n e c : ℤ) (fuel : ℕ) : Option ℤ :=
  (recoverFull n e c fuel).map fun t => t.2.2.2

/-- PyCrypto's `long_to_bytes`: the minimal big-endian byte string of a
nonnegative integer (`[0]` for `0`, as in the library). -/
def long_to_bytes (x : ℕ) : List ℕ :=
  if x = 0 then [0] else (Nat.digits 256 x).reverse

/-- Python's trailing slice `l[-len:]` for `1 ≤ len` (the script takes
`[-48:]`): the last `len` entries, or all of `l` when it is shorter. -/
def lastSlice (l : List ℕ) (len : ℕ) : List ℕ := l.drop (l.length - len)

/-- The script's final line, `long_to_bytes(plaintext)[-48:]`, on top of
the recovery. -/
def recoverBytes (n e c : ℤ) (fuel : ℕ) : Option (List ℕ) :=
  (recoverInt n e c fuel).map fun m => lastSlice (long_to_bytes m.toNat) 48

/-- The loop, run on `(n, e)`, never terminates: no fuel makes it
return. -/
def searchDiverges (n e : ℤ) : Prop := ∀ fuel, search n e fuel = none

/-- No run of the script on `(n, e, c)` — at any fuel for its unbounded
loop — recovers the plaintext `v`. -/
def recoverNever (n e c v : ℤ) : Prop := ∀ fuel, recoverInt n e c fuel ≠ some v

/-- Arithmetic-geometric mean inequality over the naturals, in the form
the Newton step needs. -/
theorem four_mul_le_add_sq (a b : ℕ) : 4 * a * b ≤ (a + b) * (a + b) := by
  zify
  nlinarith [sq_nonneg ((a : ℤ) - (b : ℤ))]

/-- One Newton step keeps the guess at or above the square root. -/
theorem newton_step_bound (n g : ℕ) (hg : 0 < g) :
    n < ((g + n / g) / 2 + 1) * ((g + n / g) / 2 + 1) := by
  obtain ⟨q, hq⟩ : ∃ q, n / g = q := ⟨_, rfl⟩
  obtain ⟨m, hm⟩ : ∃ m, (g + q) / 2 = m := ⟨_, rfl⟩
  rw [hq, hm]
  have hdm : g * q + n % g = n := by rw [← hq]; exact Nat.div_add_mod n g
  have hmod : n % g < g := Nat.mod_lt n hg
  have hn_lt : n < g * q + g := by linarith
  have h1 : g + q ≤ 2 * m + 1 := by omega
  have hamgm : 4 * g * (q + 1) ≤ (g + (q + 1)) * (g + (q + 1)) :=
    four_mul_le_add_sq g (q + 1)
  have h2 : (g + (q + 1)) * (g + (q + 1)) ≤ (2 * m + 2) * (2 * m + 2) :=
    Nat.mul_le_mul (by omega) (by omega)
  have h3 : 4 * n < 4 * g * (q + 1) := by
    have hexp : 4 * g * (q + 1) = 4 * (g * q) + 4 * g := by ring
    linarith
  have h4 : (2 * m + 2) * (2 * m + 2) = 4 * ((m + 1) * (m + 1)) := by ring
  linarith

/-- Correctness of the fueled Newton iteration: with enough fuel and a
starting guess at or above the square root, it computes the floor square
root. -/
theorem sqrtIter_spec (n : ℕ) :
    ∀ fuel g, g ≤ fuel → n < (g + 1) * (g + 1) →
      sqrtIter n fuel g * sqrtIter n fuel g ≤ n ∧
        n < (sqrtIter n fuel g + 1) * (sqrtIter n fuel g + 1) := by
  intro fuel
  induction fuel with
  | zero =>
    intro g hgf hn
    have hg : g = 0 := Nat.le_zero.mp hgf
    subst hg
    exact ⟨Nat.zero_le n, hn⟩
  | succ f ih =>
    intro g hgf hn
    rw [sqrtIter]
    by_cases h : (g + n / g) / 2 < g
    · rw [if_pos h]
      have hg : 0 < g := lt_of_le_of_lt (Nat.zero_le _) h
      exact ih ((g + n / g) / 2) (Nat.lt_succ_iff.mp (lt_of_lt_of_le h hgf))
        (newton_step_bound n g hg)
    · rw [if_neg h]
      refine ⟨?_, hn⟩
      by_cases hg0 : g = 0
      · subst hg0; exact Nat.zero_le n
      · have hg : 0 < g := Nat.pos_of_ne_zero hg0
        obtain ⟨q, hq⟩ : ∃ q, n / g = q := ⟨_, rfl⟩
        rw [hq] at h
        have h1 : g ≤ n / g := by rw [hq]; omega
        exact (Nat.le_div_iff_mul_le hg).mp h1

/-- Correctness of the structural square root: it is the floor square
root. -/
theorem sqrtNat_spec (n : ℕ) :
    sqrtNat n * sqrtNat n ≤ n ∧ n < (sqrtNat n + 1) * (sqrtNat n + 1) := by
  rw [sqrtNat]
  by_cases h : n ≤ 1
  · rw [if_pos h]
    interval_cases n
    · exact ⟨Nat.le_refl 0, Nat.zero_lt_one⟩
    · exact ⟨Nat.le_refl 1, by norm_num⟩
  · rw [if_neg h]
    have hn2 : 2 ≤ n := by omega
    apply sqrtIter_spec
    · omega
    · have hdm : 2 * (n / 2) + n % 2 = n := Nat.div_add_mod n 2
      have hmod : n % 2 < 2 := Nat.mod_lt n (by omega)
      nlinarith [Nat.zero_le (n / 2 * (n / 2))]

/-- The structural square root of a perfect square. -/
theorem sqrtNat_sq (t : ℕ) : sqrtNat (t * t) = t := by
  obtain ⟨h1, h2⟩ := sqrtNat_spec (t * t)
  by_contra hne
  rcases Nat.lt_or_ge (sqrtNat (t * t)) t with h | h
  · have : (sqrtNat (t * t) + 1) * (sqrtNat (t * t) + 1) ≤ t * t := Nat.mul_le_mul h h
    omega
  · have ht : t < sqrtNat (t * t) := lt_of_le_of_ne h (fun a => hne a.symm)
    have : sqrtNat (t * t) * sqrtNat (t * t) ≥ (t + 1) * (t + 1) := Nat.mul_le_mul ht ht
    nlinarith

/-- Integer square root of a perfect square. -/
theorem intSqrt_sq (t : ℤ) : intSqrt (t * t) = (t.natAbs : ℤ) := by
  rw [intSqrt]
  have h : (t * t).toNat = t.natAbs * t.natAbs := by
    rw [← Int.natAbs_mul_self]
    exact Int.toNat_natCast _
  rw [h, sqrtNat_sq]

/-- Membership in the root list is exactly the script's root equation
`n*e - p*(k*p + 1) = 0` (for the positive `k` the loop uses). -/
theorem mem_quadRoots_iff {n e k : ℤ} (hk : 1 ≤ k) {p : ℤ} :
    p ∈ quadRoots n e k ↔ n * e - p * (k * p + 1) = 0 := by
  have hk0 : (2 * k) ≠ 0 := by omega
  constructor
  · intro hp
    rw [quadRoots] at hp
    by_cases hs : intSqrt (quadDisc n e k) * intSqrt (quadDisc n e k) = quadDisc n e k
    · rw [if_pos hs] at hp
      set s := intSqrt (quadDisc n e k) with hsdef
      rw [quadDisc] at hs
      rcases List.mem_append.mp hp with h1 | h2
      · by_cases hd : 2 * k ∣ (-1 - s)
        · rw [if_pos hd] at h1
          obtain ⟨c, hc⟩ := hd
          have hpc : p = c := by
            rw [List.mem_singleton.mp h1, hc]
            exact Int.mul_ediv_cancel_left c hk0
          have hsc : s = -1 - 2 * k * c := by linarith
          rw [hsc] at hs
          have h4 : (4 * k) * (c * (k * c + 1)) = (4 * k) * (n * e) := by
            linear_combination hs
          have := mul_left_cancel₀ (show (4 * k) ≠ 0 by omega) h4
          rw [hpc]; linarith
        · rw [if_neg hd] at h1; exact absurd h1 (List.not_mem_nil p)
      · by_cases hd : 2 * k ∣ (-1 + s)
        · rw [if_pos hd] at h2
          obtain ⟨c, hc⟩ := hd
          have hpc : p = c := by
            rw [List.mem_singleton.mp h2, hc]
            exact Int.mul_ediv_cancel_left c hk0
          have hsc : s = 2 * k * c + 1 := by linarith
          rw [hsc] at hs
          have h4 : (4 * k) * (c * (k * c + 1)) = (4 * k) * (n * e) := by
            linear_combination hs
          have := mul_left_cancel₀ (show (4 * k) ≠ 0 by omega) h4
          rw [hpc]; linarith
        · rw [if_neg hd] at h2; exact absurd h2 (List.not_mem_nil p)
    · rw [if_neg hs] at hp; exact absurd hp (List.not_mem_nil p)
  · intro heq
    have hd : quadDisc n e k = (2 * k * p + 1) * (2 * k * p + 1) := by
      rw [quadDisc]; linear_combination (4 * k) * heq
    have hs : intSqrt (quadDisc n e k) = ((2 * k * p + 1).natAbs : ℤ) := by
      rw [hd, intSqrt_sq]
    have hcond : intSqrt (quadDisc n e k) * intSqrt (quadDisc n e k) = quadDisc n e k := by
      rw [hs, hd, Int.natAbs_mul_self']
    rw [quadRoots, if_pos hcond]
    rcases le_or_lt 0 (2 * k * p + 1) with ht | ht
    · have hs' : (((2 * k * p + 1).natAbs : ℤ)) = 2 * k * p + 1 :=
        Int.natAbs_of_nonneg ht
      apply List.mem_append.mpr; right
      have hdvd : 2 * k ∣ (-1 + intSqrt (quadDisc n e k)) := by
        rw [hs, hs']; exact ⟨p, by ring⟩
      rw [if_pos hdvd]
      apply List.mem_singleton.mpr
      rw [hs, hs']
      have harg : (-1 + (2 * k * p + 1)) = (2 * k) * p := by ring
      rw [harg, Int.mul_ediv_cancel_left p hk0]
    · have hs' : (((2 * k * p + 1).natAbs : ℤ)) = -(2 * k * p + 1) := by
        rw [← Int.natAbs_neg]; exact Int.natAbs_of_nonneg (by omega)
      apply List.mem_append.mpr; left
      have hdvd : 2 * k ∣ (-1 - intSqrt (quadDisc n e k)) := by
        rw [hs, hs']; exact ⟨p, by ring⟩
      rw [if_pos hdvd]
      apply List.mem_singleton.mpr
      rw [hs, hs']
      have harg : (-1 - (-(2 * k * p + 1))) = (2 * k) * p := by ring
      rw [harg, Int.mul_ediv_cancel_left p hk0]


/-- Structure of a successful run of the loop: started at `k0`, it exits
with variable `k` equal to `k0 + 2*j + 2` for the number `j` of failed
iterations, the returned root is a root at `k0 + 2*j`, and every earlier
tested value had no root. -/
theorem searchAux_some {n e : ℤ} :
    ∀ (fuel : ℕ) (k0 kx px : ℤ), searchAux n e fuel k0 = some (kx, px) →
      ∃ j : ℕ, kx = k0 + 2 * j + 2 ∧ px ∈ quadRoots n e (k0 + 2 * j) ∧
        ∀ i : ℕ, i < j → quadRoots n e (k0 + 2 * i) = [] := by
  intro fuel
  induction fuel with
  | zero => intro k0 kx px h; exact absurd h (by rw [searchAux]; exact Option.noConfusion)
  | succ f ih =>
    intro k0 kx px h
    rw [searchAux] at h
    rcases hr : quadRoots n e k0 with _ | ⟨p, ps⟩
    · rw [hr] at h
      obtain ⟨j, hj1, hj2, hj3⟩ := ih (k0 + 2) kx px h
      refine ⟨j + 1, by push_cast; linarith, ?_, ?_⟩
      · have harg : k0 + 2 * ((j : ℤ) + 1) = k0 + 2 + 2 * j := by ring
        rw [Nat.cast_add, Nat.cast_one, harg]
        exact hj2
      · intro i hi
        rcases Nat.eq_zero_or_pos i with h0 | h0
        · subst h0; simpa using hr
        · obtain ⟨i', rfl⟩ := Nat.exists_eq_add_of_le h0
          have harg : k0 + 2 * ((1 + i' : ℕ) : ℤ) = k0 + 2 + 2 * i' := by push_cast; ring
          rw [harg]
          exact hj3 i' (by omega)
    · rw [hr] at h
      injection h with h'
      obtain ⟨h1, h2⟩ := Prod.mk.injEq .. ▸ h'
      refine ⟨0, by rw [← h1]; push_cast; ring, ?_, fun i hi => absurd hi (Nat.not_lt_zero i)⟩
      simp only [Nat.cast_zero, mul_zero, add_zero]
      rw [hr, ← h2]
      exact List.mem_cons_self p ps

/-- Structure of a successful run of the whole search (entered at
`k = 2`). -/
theorem search_some {n e : ℤ} {fuel : ℕ} {kx px : ℤ}
    (h : search n e fuel = some (kx, px)) :
    ∃ j : ℕ, kx = 2 * j + 4 ∧ px ∈ quadRoots n e (2 * j + 2) ∧
      ∀ i : ℕ, i < j → quadRoots n e (2 * i + 2) = [] := by
  obtain ⟨j, h1, h2, h3⟩ := searchAux_some fuel 2 kx px h
  refine ⟨j, by linarith, by rwa [show (2:ℤ) + 2 * j = 2 * j + 2 by ring] at h2, ?_⟩
  intro i hi
  have := h3 i hi
  rwa [show (2:ℤ) + 2 * i = 2 * i + 2 by ring] at this

/-- If some tested value admits a root, the loop succeeds once the fuel
covers it. -/
theorem searchAux_succeeds {n e : ℤ} :
    ∀ (fuel j : ℕ) (k0 : ℤ), j < fuel → quadRoots n e (k0 + 2 * j) ≠ [] →
      searchAux n e fuel k0 ≠ none := by
  intro fuel
  induction fuel with
  | zero => intro j k0 hj; exact absurd hj (Nat.not_lt_zero j)
  | succ f ih =>
    intro j k0 hj hroot
    rw [searchAux]
    rcases hr : quadRoots n e k0 with _ | ⟨p, ps⟩
    · rcases Nat.eq_zero_or_pos j with h0 | h0
      · subst h0; simp only [Nat.cast_zero, mul_zero, add_zero] at hroot; exact absurd hr hroot
      · obtain ⟨j', rfl⟩ := Nat.exists_eq_add_of_le h0
        apply ih j' (k0 + 2) (by omega)
        have harg : k0 + 2 + 2 * (j' : ℤ) = k0 + 2 * ((1 + j' : ℕ) : ℤ) := by push_cast; ring
        rw [harg]
        exact hroot
    · exact Option.noConfusion

/-- Invariant of the fueled extended Euclid: with enough fuel, it
returns the gcd together with Bezout coefficients. -/
theorem egcdAux_spec (a b : ℤ) :
    ∀ (fuel r0 r1 : ℕ) (s0 s1 t0 t1 : ℤ), r1 ≤ fuel →
      (r0 : ℤ) = a * s0 + b * t0 → (r1 : ℤ) = a * s1 + b * t1 →
      ((egcdAux fuel r0 r1 s0 s1 t0 t1).1 : ℤ)
          = a * (egcdAux fuel r0 r1 s0 s1 t0 t1).2.1
            + b * (egcdAux fuel r0 r1 s0 s1 t0 t1).2.2
        ∧ (egcdAux fuel r0 r1 s0 s1 t0 t1).1 = Nat.gcd r0 r1 := by
  intro fuel
  induction fuel with
  | zero =>
    intro r0 r1 s0 s1 t0 t1 hf h0 h1
    have : r1 = 0 := Nat.le_zero.mp hf
    subst this
    rw [egcdAux]
    exact ⟨h0, (Nat.gcd_zero_right r0).symm⟩
  | succ f ih =>
    intro r0 r1 s0 s1 t0 t1 hf h0 h1
    rw [egcdAux]
    by_cases h : r1 = 0
    · rw [if_pos h]
      subst h
      exact ⟨h0, (Nat.gcd_zero_right r0).symm⟩
    · rw [if_neg h]
      have hr1 : 0 < r1 := Nat.pos_of_ne_zero h
      have hmodlt : r0 % r1 < r1 := Nat.mod_lt r0 hr1
      have hdm : r1 * (r0 / r1) + r0 % r1 = r0 := Nat.div_add_mod r0 r1
      have hmod : ((r0 % r1 : ℕ) : ℤ)
          = a * (s0 - (r0 / r1 : ℕ) * s1) + b * (t0 - (r0 / r1 : ℕ) * t1) := by
        have hcast : ((r0 % r1 : ℕ) : ℤ) = (r0 : ℤ) - ((r0 / r1 : ℕ) : ℤ) * r1 := by
          have h' : (r1 : ℤ) * ((r0 / r1 : ℕ) : ℤ) + ((r0 % r1 : ℕ) : ℤ) = (r0 : ℤ) := by
            exact_mod_cast congrArg (fun x : ℕ => (x : ℤ)) hdm
          linarith
        rw [hcast, h0, h1]; ring
      obtain ⟨hb, hg⟩ := ih r1 (r0 % r1) s1 (s0 - (r0 / r1 : ℕ) * s1)
        t1 (t0 - (r0 / r1 : ℕ) * t1) (by omega) h1 hmod
      refine ⟨hb, ?_⟩
      rw [hg, Nat.gcd_comm r0 r1, Nat.gcd_rec r1 r0]
      rw [Nat.gcd_comm (r0 % r1) r1]

/-- Bezout identity for `egcd`. -/
theorem egcd_bezout (a b : ℕ) :
    ((egcd a b).1 : ℤ) = a * (egcd a b).2.1 + b * (egcd a b).2.2
      ∧ (egcd a b).1 = Nat.gcd a b := by
  exact egcdAux_spec a b b a b 1 0 0 1 le_rfl (by ring) (by ring)

/-- Specification of `inverse_mod` on the inputs where it succeeds: the
result is the inverse of `a` modulo `m`, in `[0, m)`. -/
theorem inverse_mod_some (a m : ℤ) (ha : 0 ≤ a) (h0 : 0 < m)
    (hg : Int.gcd a m = 1) :
    ∃ d, inverse_mod a m = some d ∧ 0 ≤ d ∧ d < m ∧ a * d ≡ 1 [ZMOD m] := by
  refine ⟨(egcd a.natAbs m.toNat).2.1 % m, ?_,
    Int.emod_nonneg _ (ne_of_gt h0), Int.emod_lt_of_pos _ h0, ?_⟩
  · rw [inverse_mod, if_pos ⟨h0, hg⟩]
  · obtain ⟨hbez, hgcd⟩ := egcd_bezout a.natAbs m.toNat
    have htn : m.toNat = m.natAbs := by omega
    have hgcd1 : (egcd a.natAbs m.toNat).1 = 1 := by
      rw [hgcd, htn]; exact hg
    rw [hgcd1] at hbez
    have han : ((a.natAbs : ℕ) : ℤ) = a := Int.natAbs_of_nonneg ha
    have hmn : ((m.toNat : ℕ) : ℤ) = m := Int.toNat_of_nonneg h0.le
    rw [han, hmn] at hbez
    have h1 : (egcd a.natAbs m.toNat).2.1 % m ≡ (egcd a.natAbs m.toNat).2.1 [ZMOD m] :=
      Int.emod_emod_of_dvd _ dvd_rfl
    have h2 : a * (egcd a.natAbs m.toNat).2.1 ≡ 1 [ZMOD m] := by
      symm
      rw [Int.modEq_iff_dvd]
      exact ⟨-(egcd a.natAbs m.toNat).2.2, by push_cast at hbez; linarith⟩
    exact (Int.ModEq.mul_left a h1).trans h2

/-- Fermat-style lemma: for a prime `p` and an exponent one more than a
multiple of `p - 1`, exponentiation fixes every residue modulo `p`
(including multiples of `p`). -/
theorem pow_mult_sub_one_add_one_modEq (p : ℕ) (hp : p.Prime) (a E : ℕ)
    (hE : (p - 1) ∣ E) : a ^ (E + 1) ≡ a [MOD p] := by
  by_cases hpa : p ∣ a
  · have h0 : a ≡ 0 [MOD p] := (Nat.modEq_zero_iff_dvd).mpr hpa
    calc a ^ (E + 1) ≡ 0 ^ (E + 1) [MOD p] := h0.pow _
      _ = 0 := zero_pow (Nat.succ_ne_zero E)
      _ ≡ a [MOD p] := h0.symm
  · obtain ⟨c, hc⟩ := hE
    have hco : Nat.Coprime a p := (Nat.Prime.coprime_iff_not_dvd hp).mpr hpa |>.symm
    have heuler : a ^ (p - 1) ≡ 1 [MOD p] := by
      have := Nat.ModEq.pow_totient hco
      rwa [Nat.totient_prime hp] at this
    calc a ^ (E + 1) = (a ^ (p - 1)) ^ c * a := by rw [← pow_mul, ← hc, pow_succ]
      _ ≡ 1 ^ c * a [MOD p] := (heuler.pow c).mul_right a
      _ = a := by rw [one_pow, one_mul]

/-- The RSA round-trip congruence: for distinct primes `p, q` and an
exponent `s ≡ 1` modulo `(p-1)*(q-1)` with `1 ≤ s`, the `s`-th power
fixes every residue modulo `p*q`. -/
theorem rsa_pow_modEq (p q : ℕ) (hp : p.Prime) (hq : q.Prime) (hpq : p ≠ q)
    (s : ℕ) (hs : s ≡ 1 [MOD (p - 1) * (q - 1)]) (hs1 : 1 ≤ s) (a : ℕ) :
    a ^ s ≡ a [MOD p * q] := by
  obtain ⟨t, ht⟩ : ((p - 1) * (q - 1)) ∣ (s - 1) :=
    (Nat.modEq_iff_dvd' hs1).mp hs.symm
  have hsE : s = (p - 1) * (q - 1) * t + 1 := by omega
  have hpart1 : a ^ s ≡ a [MOD p] := by
    rw [hsE]
    exact pow_mult_sub_one_add_one_modEq p hp a _ ⟨(q - 1) * t, by ring⟩
  have hpart2 : a ^ s ≡ a [MOD q] := by
    rw [hsE]
    exact pow_mult_sub_one_add_one_modEq q hq a _ ⟨(p - 1) * t, by ring⟩
  exact (Nat.modEq_and_modEq_iff_modEq_mul
    ((Nat.coprime_primes hp hq).mpr hpq)).mp ⟨hpart1, hpart2⟩

/-- The RSA round trip on plaintext values below the modulus, in the
form the script computes it: decrypting `m ^ e % n` with the inverse
exponent returns `m`. -/
theorem rsa_roundtrip (p q e dn : ℕ) (hp : p.Prime) (hq : q.Prime)
    (hpq : p ≠ q) (hed : e * dn ≡ 1 [MOD (p - 1) * (q - 1)])
    (hed1 : 1 ≤ e * dn) (m : ℕ) (hm : m < p * q) :
    ((m ^ e % (p * q)) ^ dn) % (p * q) = m := by
  have h1 : (m ^ e % (p * q)) ^ dn ≡ (m ^ e) ^ dn [MOD p * q] :=
    (Nat.mod_modEq (m ^ e) (p * q)).pow dn
  have h2 : (m ^ e) ^ dn ≡ m [MOD p * q] := by
    rw [← pow_mul]
    exact rsa_pow_modEq p q hp hq hpq (e * dn) hed hed1 m
  have h3 : (m ^ e % (p * q)) ^ dn ≡ m [MOD p * q] := h1.trans h2
  have h4 : (m ^ e % (p * q)) ^ dn % (p * q) = m % (p * q) := h3
  rwa [Nat.mod_eq_of_lt hm] at h4

/-- Any successful run of the loop satisfies the root equation at the
`k` value of the iteration that found the root, which is two less than
the exit value of the variable `k`. -/
theorem search_root_equation {n e : ℤ} {fuel : ℕ} {kx p : ℤ}
    (h : search n e fuel = some (kx, p)) : n * e = p * ((kx - 2) * p + 1) := by
  obtain ⟨j, hj1, hj2, hj3⟩ := search_some h
  have hk1 : (1 : ℤ) ≤ 2 * (j : ℕ) + 2 := by omega
  have heq := (mem_quadRoots_iff hk1).mp hj2
  have hkx : kx - 2 = 2 * (j : ℕ) + 2 := by omega
  rw [hkx]
  linarith

/-- C2 counterexample: on input `(n, e) = (5, 3)` the loop terminates at
its first iteration with root `p = -3`, which is neither positive nor a
divisor of `n`. -/
theorem claim_C2_counterexample :
    search 5 3 1 = some (4, -3) ∧ ¬ (0 < (-3 : ℤ)) ∧ ¬ ((-3 : ℤ) ∣ 5) := by
  refine ⟨by decide, by decide, by decide⟩

/-- C2 (amended): whenever the k-search loop terminates, the root `p` it
produces satisfies `n*e = p*(k0*p + 1)` at the `k0` at which the root
was found (the exit value of the loop variable minus 2); `p` need not be
positive and need not divide `n` (no divisibility check is performed). -/
theorem claim_C2_root_equation (n e : ℤ) (fuel : ℕ) (kx p : ℤ)
    (h : search n e fuel = some (kx, p)) : n * e = p * ((kx - 2) * p + 1) :=
  search_root_equation h

/-- C2 witness: the equation instantiated on the run at `(21, 5)`, which
exits with `k = 4` and root `p = 7`. -/
theorem claim_C2_witness : (21 : ℤ) * 5 = 7 * (((4 : ℤ) - 2) * 7 + 1) :=
  claim_C2_root_equation 21 5 1 4 7 (by decide)

/-- C4: the loop tests exactly the even values `2, 4, 6, ...` in
strictly increasing order — every tested value has the form `2*i + 2`, an
odd `k` is never tested — and it stops at the first tested `k` whose
quadratic has an integer root, exiting with the variable `k` two past
that value. -/
theorem claim_C4_even_first_success (n e : ℤ) (fuel : ℕ) (kx p : ℤ)
    (h : search n e fuel = some (kx, p)) :
    ∃ j : ℕ, kx = 2 * j + 4 ∧ (2 * (j : ℤ) + 2) % 2 = 0 ∧
      p ∈ quadRoots n e (2 * j + 2) ∧
      ∀ i : ℕ, i < j → quadRoots n e (2 * i + 2) = [] := by
  obtain ⟨j, hj1, hj2, hj3⟩ := search_some h
  exact ⟨j, hj1, by omega, hj2, hj3⟩

/-- C4 witness: on `(21, 5)` the loop exits with `k = 4` having found
root `7` at the first tested (even) value `2`. -/
theorem claim_C4_witness :
    ∃ j : ℕ, (4 : ℤ) = 2 * j + 4 ∧ (2 * (j : ℤ) + 2) % 2 = 0 ∧
      (7 : ℤ) ∈ quadRoots 21 5 (2 * j + 2) ∧
      ∀ i : ℕ, i < j → quadRoots 21 5 (2 * i + 2) = [] :=
  claim_C4_even_first_success 21 5 1 4 7 (by decide)

/-- C10: at loop exit the variable `k` has been incremented once past
the successful value, so the root satisfies `n*e = p*((k-2)*p + 1)` for
the exit value of `k` — and not, in general, `n*e = p*(k*p + 1)` (the
run on `(21, 5)` violates the latter). -/
theorem claim_C10_exit_value :
    (∀ (n e : ℤ) (fuel : ℕ) (kx p : ℤ), search n e fuel = some (kx, p) →
      n * e = p * ((kx - 2) * p + 1)) ∧
    ¬ (∀ (n e : ℤ) (fuel : ℕ) (kx p : ℤ), search n e fuel = some (kx, p) →
      n * e = p * (kx * p + 1)) := by
  constructor
  · intro n e fuel kx p h
    exact search_root_equation h
  · intro hall
    have := hall 21 5 1 4 7 (by decide)
    norm_num at this

/-- C7: the recovery procedure is deterministic — two runs on the same
`(n, e, ciphertext)` (with the same loop fuel) produce identical
`(p, q, d, plaintext)` quadruples. -/
theorem claim_C7_deterministic (n e c : ℤ) (fuel : ℕ)
    (r1 r2 : Option (ℤ × ℤ × ℤ × ℤ))
    (h1 : recoverFull n e c fuel = r1) (h2 : recoverFull n e c fuel = r2) :
    r1 = r2 := h1 ▸ h2 ▸ rfl

/-- C7 witness: two runs on `(21, 5, 11)` produce the same quadruple. -/
theorem claim_C7_witness :
    (some ((7 : ℤ), (3 : ℤ), (5 : ℤ), (2 : ℤ)) : Option (ℤ × ℤ × ℤ × ℤ)) =
      some (7, 3, 5, 2) :=
  claim_C7_deterministic 21 5 11 1 (some (7, 3, 5, 2)) (some (7, 3, 5, 2))
    (by decide) (by decide)

/-- C9: when the decoded plaintext byte string consists of padding bytes
followed by the flag bytes, the trailing slice of length `len(flag)`
recovers exactly the flag bytes. -/
theorem claim_C9_slice_extraction (m : ℕ) (pad flag : List ℕ)
    (h : long_to_bytes m = pad ++ flag) :
    lastSlice (long_to_bytes m) flag.length = flag := by
  rw [h, lastSlice, List.length_append, Nat.add_sub_cancel, List.drop_left]

/-- Concrete evaluation of the byte decoding (the digits function is
not kernel-reducible, so this is proved by rewriting). -/
theorem long_to_bytes_258 : long_to_bytes 258 = [1] ++ [2] := by
  rw [long_to_bytes, if_neg (by norm_num)]
  rw [Nat.digits_def' (by norm_num : 1 < 256) (by norm_num : (0 : ℕ) < 258)]
  norm_num

/-- C9 witness: the plaintext `258` decodes to bytes `[1, 2]`; with one
padding byte the trailing 1-byte slice is the flag `[2]`. -/
theorem claim_C9_witness :
    lastSlice (long_to_bytes 258) (List.length [2]) = [2] :=
  claim_C9_slice_extraction 258 [1] [2] long_to_bytes_258

/-- On input `(n, e) = (2, 2)` no even `k ≥ 2` admits an integer root:
a root `p` would satisfy `p * (k*p + 1) = 4`, and checking the divisors
of `4` rules every candidate out. -/
theorem quadRoots_two_two_empty (k : ℤ) (hk : 2 ≤ k) (hev : k % 2 = 0) :
    quadRoots 2 2 k = [] := by
  rw [List.eq_nil_iff_forall_not_mem]
  intro p hp
  have h := (mem_quadRoots_iff (by omega : (1 : ℤ) ≤ k)).mp hp
  have h4 : (4 : ℤ) = p * (k * p + 1) := by linarith
  have hpd : p ∣ 4 := Dvd.intro _ h4.symm
  have hub : p ≤ 4 := Int.le_of_dvd (by norm_num) hpd
  have hlb : -4 ≤ p := by
    have := Int.le_of_dvd (by norm_num : (0 : ℤ) < 4) ((Int.neg_dvd).mpr hpd)
    omega
  interval_cases p <;> omega

/-- The loop on `(2, 2)` runs forever: starting from any even `k ≥ 2`,
no fuel suffices. -/
theorem searchAux_two_two_none :
    ∀ (fuel : ℕ) (k : ℤ), 2 ≤ k → k % 2 = 0 → searchAux 2 2 fuel k = none := by
  intro fuel
  induction fuel with
  | zero => intro k _ _; rfl
  | succ f ih =>
    intro k hk hev
    rw [searchAux, quadRoots_two_two_empty k hk hev]
    exact ih (k + 2) (by omega) (by omega)

/-- C3 counterexample: the search has no iteration ceiling, and on the
input `(n, e) = (2, 2)` it never terminates — it neither finds a root
nor stops with a failure. -/
theorem claim_C3_counterexample : searchDiverges 2 2 :=
  fun fuel => searchAux_two_two_none fuel 2 (by norm_num) (by norm_num)

/-- C3 (amended): the k-search has no iteration ceiling; it terminates
exactly on those inputs `(n, e)` for which some tested value
`k = 2*j + 2` admits an integer root, and on all other inputs it loops
forever. -/
theorem claim_C3_termination_iff (n e : ℤ) :
    (∃ (fuel : ℕ) (r : ℤ × ℤ), search n e fuel = some r) ↔
      ∃ j : ℕ, quadRoots n e (2 * j + 2) ≠ [] := by
  constructor
  · rintro ⟨fuel, ⟨kx, px⟩, h⟩
    obtain ⟨j, _, hj2, _⟩ := search_some h
    exact ⟨j, List.ne_nil_of_mem hj2⟩
  · rintro ⟨j, hj⟩
    have h := searchAux_succeeds (j + 1) j 2 (Nat.lt_succ_self j)
      (by rwa [show (2 : ℤ) + 2 * j = 2 * j + 2 by ring])
    obtain ⟨r, hr⟩ := Option.ne_none_iff_exists'.mp h
    exact ⟨j + 1, r, hr⟩

/-- C3 witness: the run on `(21, 5)` terminates, and indeed its first
tested value admits a root. -/
theorem claim_C3_witness : ∃ (fuel : ℕ) (r : ℤ × ℤ), search 21 5 fuel = some r :=
  (claim_C3_termination_iff 21 5).mpr ⟨0, by decide⟩

/-- C5: the computation of `q` from the found `p` is exact division —
whenever the run produces a quadruple, the recovered factors multiply
back to `n` (`q = n / p` exactly, `n mod p = 0`), and whenever the found
root does not divide `n` the run produces no result (in the script the
non-integer rational `q` makes the following `inverse_mod` call raise;
no result is produced either way). -/
theorem claim_C5_exact_division (n e c : ℤ) (fuel : ℕ) :
    (∀ p q d m, recoverFull n e c fuel = some (p, q, d, m) → p * q = n ∧ n % p = 0) ∧
    (∀ kx p, search n e fuel = some (kx, p) → n % p ≠ 0 →
      recoverFull n e c fuel = none) := by
  constructor
  · intro p q d m h
    rw [recoverFull] at h
    rcases hs : search n e fuel with _ | ⟨kx, px⟩
    · rw [hs] at h; exact absurd h (by simp)
    · rw [hs] at h
      simp only at h
      by_cases hcond : px ≠ 0 ∧ n % px = 0
      · rw [if_pos hcond] at h
        rcases hi : inverse_mod e ((px - 1) * (n / px - 1)) with _ | d'
        · rw [hi] at h; exact absurd h (by simp)
        · rw [hi] at h
          simp only [Option.some.injEq, Prod.mk.injEq] at h
          obtain ⟨hpp, hqq, _, _⟩ := h
          subst hpp
          have hdvd : px ∣ n := Int.dvd_of_emod_eq_zero hcond.2
          refine ⟨?_, hcond.2⟩
          rw [← hqq]
          exact Int.mul_ediv_cancel' hdvd
      · rw [if_neg hcond] at h; exact absurd h (by simp)
  · intro kx p hs hmod
    rw [recoverFull, hs]
    simp only
    rw [if_neg (fun hcond => hmod hcond.2)]

/-- C5 witness: on `(21, 5, 11)` the produced factors multiply back to
the modulus, and on `(5, 3, 1)` — where the found root `-3` does not
divide `5` — no result is produced. -/
theorem claim_C5_witness :
    ((7 : ℤ) * 3 = 21 ∧ (21 : ℤ) % 7 = 0) ∧ recoverFull 5 3 1 1 = none :=
  ⟨(claim_C5_exact_division 21 5 11 1).1 7 3 5 2 (by decide),
    (claim_C5_exact_division 5 3 1 1).2 4 (-3) (by decide) (by decide)⟩

/-- C6 counterexample: the input `(n, e, c) = (1, 1, 1)` is malformed in
the claim's sense (`e ≤ 1` and `c ≥ n`), yet the procedure does not
fail: it computes the plaintext `0`. -/
theorem claim_C6_counterexample :
    (1 : ℤ) ≤ 1 ∧ (1 : ℤ) ≤ 1 ∧ recoverInt 1 1 1 1 = some 0 :=
  ⟨le_refl 1, le_refl 1, by decide⟩

/-- C6 (amended): the script performs no input validation at all — a
malformed input (here `n = e = c = 1`, so `e ≤ 1` and `c ≥ n`) proceeds
into the search and the full run computes a result,
`(p, q, d, plaintext) = (-1, -1, 1, 0)`, instead of failing. -/
theorem claim_C6_no_validation :
    recoverFull 1 1 1 1 = some (-1, -1, 1, 0) := by decide

/-- C8: for a weak key with `p`, `q`, `e` all odd primes satisfying
`q*e = k*p + 1`, the factor `k` is necessarily even — and `p` is then an
integer root of the script's quadratic at that `k`, so the even-only
search loses no solutions. -/
theorem claim_C8_k_necessarily_even (p q e : ℕ) (k : ℤ)
    (hp : p.Prime) (hq : q.Prime) (he : e.Prime)
    (hop : Odd p) (hoq : Odd q) (hoe : Odd e)
    (hk : (q : ℤ) * e = k * p + 1) :
    Even k ∧ (p : ℤ) ∈ quadRoots ((p : ℤ) * q) e k := by
  obtain ⟨a, ha⟩ := hop
  obtain ⟨b, hb⟩ := hoq
  obtain ⟨c, hc⟩ := hoe
  have hp3 : 3 ≤ p := by
    have := hp.two_le
    omega
  have hq3 : 3 ≤ q := by
    have := hq.two_le
    omega
  have he3 : 3 ≤ e := by
    have := he.two_le
    omega
  have hkpos : 1 ≤ k := by
    have hqe : (9 : ℤ) ≤ (q : ℤ) * e := by
      have h1 : (3 : ℤ) ≤ (q : ℤ) := by exact_mod_cast hq3
      have h2 : (3 : ℤ) ≤ (e : ℤ) := by exact_mod_cast he3
      nlinarith
    have hppos : (0 : ℤ) < (p : ℤ) := by exact_mod_cast hp.pos
    nlinarith [hk]
  have heven : Even k := by
    rcases Int.even_or_odd k with hev | ⟨d, hd⟩
    · exact hev
    · exfalso
      have hcast : ((2 * b + 1 : ℕ) : ℤ) * ((2 * c + 1 : ℕ) : ℤ)
          = (2 * d + 1) * ((2 * a + 1 : ℕ) : ℤ) + 1 := by
        rw [← hb, ← hc, ← ha, ← hd]
        exact hk
      push_cast at hcast
      have hkey : 2 * (2 * (b : ℤ) * c + b + c) + 1
          = 2 * (2 * d * a + d + a + 1) := by linear_combination hcast
      obtain ⟨L, hL⟩ : ∃ L : ℤ, L = 2 * (b : ℤ) * c + b + c := ⟨_, rfl⟩
      obtain ⟨R, hR⟩ : ∃ R : ℤ, R = 2 * d * (a : ℤ) + d + a + 1 := ⟨_, rfl⟩
      rw [← hL, ← hR] at hkey
      omega
  refine ⟨heven, (mem_quadRoots_iff hkpos).mpr ?_⟩
  linear_combination ((p : ℤ)) * hk

/-- C8 witness: the odd primes `p = 3`, `q = 5`, `e = 5` satisfy
`q*e = 25 = 8*3 + 1`, the factor `8` is even, and `3` is a root of the
quadratic at `k = 8`. -/
theorem claim_C8_witness : Even (8 : ℤ) ∧ (3 : ℤ) ∈ quadRoots ((3 : ℤ) * 5) 5 8 :=
  claim_C8_k_necessarily_even 3 5 5 8 (by norm_num) (by norm_num) (by norm_num)
    (by decide) (by decide) (by decide) (by norm_num)

/-- C1 counterexample: the key `p = 5`, `q = 3`, `e = 7` is generated by
the vulnerable procedure (`3 = 7⁻¹ mod 5`, both primes, `e` coprime to
`(p-1)*(q-1)`), and `m = 2 < n` encrypts to `2^7 mod 15 = 8`; yet the
recovery run on `(15, 7, 8)` never returns `2` at any fuel — the
even-`k` search first hits the spurious root `p = 7` (at `k = 2`, from
`7*(2*7+1) = 105 = n*e`), which does not divide `15`, so the run dies
instead of recovering the plaintext. -/
theorem claim_C1_counterexample :
    Nat.Prime 5 ∧ Nat.Prime 3 ∧ Nat.Prime 7 ∧ (3 * 7) % 5 = 1 % 5 ∧ 3 < 5 ∧
    Nat.Coprime 7 ((5 - 1) * (3 - 1)) ∧ 2 < 5 * 3 ∧ 2 ^ 7 % (5 * 3) = 8 ∧
    recoverNever 15 7 8 2 := by
  refine ⟨by norm_num, by norm_num, by norm_num, by norm_num, by norm_num,
    by decide, by norm_num, by norm_num, ?_⟩
  intro fuel
  cases fuel with
  | zero => decide
  | succ f =>
    intro hcontra
    rw [show recoverInt 15 7 8 (f + 1) = none from rfl] at hcontra
    exact Option.noConfusion hcontra

/-- C1 (amended): for a key generated by the vulnerable procedure
(`p` prime, `q` the modular inverse of `e` mod `p` with `q` prime,
`n = p*q`, `e` coprime to `(p-1)*(q-1)`) and a plaintext `m < n`,
*provided the search's first successful even `k` yields the generator's
prime `p` itself*, the recovery run on `(n, e, m^e mod n)` returns `m`.
(The proviso is forced: the search can first hit a spurious root, as in
the counterexample.) -/
theorem claim_C1_roundtrip (p q e m fuel : ℕ) (kx : ℤ)
    (hp : p.Prime) (hq : q.Prime)
    (hqinv : (q * e) % p = 1 % p) (hqlt : q < p)
    (hcop : Nat.Coprime e ((p - 1) * (q - 1)))
    (hm : m < p * q)
    (hfound : search ((p : ℤ) * (q : ℤ)) (e : ℤ) fuel = some (kx, (p : ℤ))) :
    recoverInt ((p : ℤ) * (q : ℤ)) (e : ℤ) (((m ^ e % (p * q) : ℕ)) : ℤ) fuel
      = some ((m : ℕ) : ℤ) := by
  have hp2 := hp.two_le
  have hq2 := hq.two_le
  have hp1 : 1 % p = 1 := Nat.mod_eq_of_lt (by omega)
  have hpq : p ≠ q := by omega
  have he1 : 1 ≤ e := by
    rcases Nat.eq_zero_or_pos e with h0 | h0
    · subst h0
      rw [Nat.mul_zero, Nat.zero_mod, hp1] at hqinv
      omega
    · exact h0
  have hφ2 : 2 ≤ (p - 1) * (q - 1) := by
    have h1 : 2 ≤ p - 1 := by omega
    have h2 : 1 ≤ q - 1 := by omega
    calc 2 = 2 * 1 := by norm_num
      _ ≤ (p - 1) * (q - 1) := Nat.mul_le_mul h1 h2
  have hpne : ((p : ℕ) : ℤ) ≠ 0 := by
    simp only [ne_eq, Nat.cast_eq_zero]
    omega
  rw [recoverInt, recoverFull, hfound]
  simp only
  have hmodz : ((p : ℤ) * (q : ℤ)) % (p : ℤ) = 0 := Int.mul_emod_right _ _
  rw [if_pos ⟨hpne, hmodz⟩]
  have hqdiv : ((p : ℤ) * (q : ℤ)) / (p : ℤ) = (q : ℤ) :=
    Int.mul_ediv_cancel_left _ hpne
  rw [hqdiv]
  have hcastphi : ((p : ℤ) - 1) * ((q : ℤ) - 1) = (((p - 1) * (q - 1) : ℕ) : ℤ) := by
    rw [Nat.cast_mul, Nat.cast_sub (by omega : 1 ≤ p),
      Nat.cast_sub (by omega : 1 ≤ q), Nat.cast_one]
  rw [hcastphi]
  obtain ⟨d, hd_eq, hd0, hdlt, hdinv⟩ :=
    inverse_mod_some (e : ℤ) ((((p - 1) * (q - 1) : ℕ)) : ℤ)
      (by positivity)
      (by exact_mod_cast (by omega : 0 < (p - 1) * (q - 1)))
      (by rw [Int.gcd_natCast_natCast]; exact hcop)
  rw [hd_eq]
  simp only [Option.map_some']
  obtain ⟨dn, hdn⟩ : ∃ dn : ℕ, d = (dn : ℤ) := ⟨d.toNat, (Int.toNat_of_nonneg hd0).symm⟩
  subst hdn
  rw [powMod, Int.toNat_natCast, Option.some_inj]
  have hED : (e * dn) % ((p - 1) * (q - 1)) = 1 % ((p - 1) * (q - 1)) := by
    have h : ((e : ℤ) * (dn : ℤ)) % ((((p - 1) * (q - 1) : ℕ)) : ℤ)
        = 1 % ((((p - 1) * (q - 1) : ℕ)) : ℤ) := hdinv
    exact_mod_cast h
  have hdn1 : 1 ≤ dn := by
    rcases Nat.eq_zero_or_pos dn with h0 | h0
    · subst h0
      rw [Nat.mul_zero, Nat.zero_mod] at hED
      have h1 : 1 % ((p - 1) * (q - 1)) = 1 := Nat.mod_eq_of_lt (by omega)
      omega
    · exact h0
  have hrt := rsa_roundtrip p q e dn hp hq hpq hED
    (Nat.one_le_iff_ne_zero.mpr (Nat.mul_ne_zero (by omega) (by omega))) m hm
  calc ((m ^ e % (p * q) : ℕ) : ℤ) ^ dn % ((p : ℤ) * (q : ℤ))
      = (((m ^ e % (p * q)) ^ dn % (p * q) : ℕ) : ℤ) := by push_cast; ring
    _ = ((m : ℕ) : ℤ) := by rw [hrt]

/-- C1 witness: the honest weak key `p = 7`, `q = 3 = 5⁻¹ mod 7`,
`e = 5`, `n = 21` with plaintext `2` (ciphertext `2^5 mod 21 = 11`): the
search finds the true `p = 7` first, and the recovery returns `2`. -/
theorem claim_C1_witness : recoverInt 21 5 11 1 = some 2 := by
  have h := claim_C1_roundtrip 7 3 5 2 1 4 (by norm_num) (by norm_num)
    (by norm_num) (by norm_num) (by decide) (by norm_num) (by decide)
  norm_num at h
  exact h

end Angou
